import Mathlib

/-!
Shallow embedding of the `lockfree` repository (files `src/hazard.rs` and
`src/spsc.rs`) together with proofs of the specification claims.

The hazard module is modelled by an explicit worker-local state holding the
process-wide quiescence counter, the worker's FIFO garbage queue, and the
list of destructors that have already run (in execution order).  Garbage
items are identified by their address, a `Nat`.

The SPSC channel is modelled by an explicit heap: an association list from
even node addresses to node records, plus the two cursors and a bump
allocator.  The value `0` plays the role of the null pointer and `1` the
role of the closed tag (`null | 1`).
-/

namespace Hazard

/-- A scheduled garbage item: the type-erased address.  The dropper function
is identified with the address for the purposes of these proofs (running the
dropper on the address is recorded by appending the address to `destroyed`). -/
abbrev Garbage := Nat

/-- Worker-visible state of the hazard module: the process-wide
`DELETION_STATUS` counter, the worker's `LOCAL_DELETION` queue (front of the
list = front of the `VecDeque`), and the trace of destructors already run,
in execution order. -/
structure HState where
  counter : Nat
  queue : List Garbage
  destroyed : List Garbage
  deriving Repr, DecidableEq

namespace GarbageQueue

/-- `GarbageQueue::delete`: pop items from the front of the deque one at a
time, running each dropper, until the deque is empty.  Returns the final
deque (always empty) and the updated execution trace. -/
def delete : List Garbage → List Garbage → List Garbage × List Garbage
  | [], destroyed => ([], destroyed)
  | g :: q, destroyed => delete q (destroyed ++ [g])

/-- `GarbageQueue::add`: push onto the back of the deque. -/
def add (queue : List Garbage) (g : Garbage) : List Garbage :=
  queue ++ [g]

theorem delete_spec (q destroyed : List Garbage) :
    delete q destroyed = ([], destroyed ++ q) := by
  induction q generalizing destroyed with
  | nil => simp [delete]
  | cons g q ih => simp [delete, ih]

end GarbageQueue

/-- `later_drop(ptr, dropper)`: first push the garbage item onto the local
queue, and only then consult the counter; if it reads zero, drain the local
queue. -/
def later_drop (g : Garbage) (s : HState) : HState :=
  let q1 := GarbageQueue.add s.queue g
  if s.counter = 0 then
    let (q2, d2) := GarbageQueue.delete q1 s.destroyed
    { s with queue := q2, destroyed := d2 }
  else
    { s with queue := q1 }

/-- `try_delete_local()`: if the counter reads zero, drain the local queue
and report success; otherwise leave the queue alone and report failure. -/
def try_delete_local (s : HState) : Except Unit Unit × HState :=
  if s.counter = 0 then
    let (q2, d2) := GarbageQueue.delete s.queue s.destroyed
    (Except.ok (), { s with queue := q2, destroyed := d2 })
  else
    (Except.error (), s)

/-- `critical(exec)`: increment the counter, run the body, decrement the
counter, return the body's result. -/
def critical (body : HState → α × HState) (s : HState) : α × HState :=
  let s1 := { s with counter := s.counter + 1 }
  let (a, s2) := body s1
  (a, { s2 with counter := s2.counter - 1 })

/-- Atomic steps of the hazard module, used to explore interleavings of
several workers.  `incr`/`decr` are the counter updates performed by
`critical`; `noop` stands for any step of a critical body that does not
touch the hazard state; `push g` is the enqueue inside `later_drop`;
`checkDrain` is the check-counter-then-drain step shared by `later_drop`
and `try_delete_local`; `teardown` is the forced drain in
`GarbageQueue::drop` (taken once the spin on the counter has ended). -/
inductive Act where
  | incr
  | decr
  | noop
  | push (g : Garbage)
  | checkDrain
  | teardown
  deriving Repr, DecidableEq

/-- Effect of one atomic step on the hazard state. -/
def step (s : HState) : Act → HState
  | .incr => { s with counter := s.counter + 1 }
  | .decr => { s with counter := s.counter - 1 }
  | .noop => s
  | .push g => { s with queue := GarbageQueue.add s.queue g }
  | .checkDrain =>
      if s.counter = 0 then
        { s with queue := [], destroyed := s.destroyed ++ s.queue }
      else s
  | .teardown => { s with queue := [], destroyed := s.destroyed ++ s.queue }

/-- Run a sequence of atomic steps. -/
def run (acts : List Act) (s : HState) : HState :=
  acts.foldl step s

/-- `Ilv xs ys zs` holds when `zs` is an interleaving of `xs` and `ys`
(each keeps its relative order). -/
inductive Ilv : List Act → List Act → List Act → Prop where
  | nil : Ilv [] [] []
  | left {x xs ys zs} : Ilv xs ys zs → Ilv (x :: xs) ys (x :: zs)
  | right {y xs ys zs} : Ilv xs ys zs → Ilv xs (y :: ys) (y :: zs)

theorem run_append (l1 l2 : List Act) (s : HState) :
    run (l1 ++ l2) s = run l2 (run l1 s) := by
  simp [run, List.foldl_append]

/-- Steps other than `decr` and `teardown`, taken from a state with positive
counter, keep the counter positive and never run a destructor. -/
theorem run_no_decr_destroyed (l : List Act) (s : HState)
    (hc : 0 < s.counter) (hd : Act.decr ∉ l) (ht : Act.teardown ∉ l) :
    (run l s).destroyed = s.destroyed ∧ 0 < (run l s).counter := by
  induction l generalizing s with
  | nil => exact ⟨rfl, hc⟩
  | cons a l ih =>
    have ha : a ≠ Act.decr := fun h => hd (h ▸ List.mem_cons_self a l)
    have ha' : a ≠ Act.teardown := fun h => ht (h ▸ List.mem_cons_self a l)
    have hl : Act.decr ∉ l := fun h => hd (List.mem_cons_of_mem a h)
    have hl' : Act.teardown ∉ l := fun h => ht (List.mem_cons_of_mem a h)
    have hstep : (step s a).destroyed = s.destroyed ∧ 0 < (step s a).counter := by
      cases a with
      | incr => exact ⟨rfl, Nat.succ_pos _⟩
      | decr => exact absurd rfl ha
      | noop => exact ⟨rfl, hc⟩
      | push g => exact ⟨rfl, hc⟩
      | checkDrain =>
          simp only [step]
          rw [if_neg (Nat.pos_iff_ne_zero.mp hc)]
          exact ⟨rfl, hc⟩
      | teardown => exact absurd rfl ha'
    have := ih (step s a) hstep.2 hl hl'
    simp only [run, List.foldl_cons] at *
    exact ⟨this.1.trans hstep.1, this.2⟩

end Hazard

namespace Spsc

/- Node addresses are plain naturals: `0` models the null pointer and `1`
models the closed tag `null | 1`; real nodes live at even addresses `≥ 2`
(the `Node` type has alignment at least 2, so the low bit of a real address
is zero). -/

/-- A channel node: an optional payload and the atomically-accessed link to
the next node (`0` = null, `1` = closed tag, even = successor address). -/
structure Node (T : Type) where
  val : Option T
  next : Nat
  deriving Repr, DecidableEq

/-- The error of `Sender::send`: the receiver disconnected; carries the
message that was attempted to be sent. -/
structure NoRecv (T : Type) where
  message : T
  deriving Repr, DecidableEq

/-- The error of `Receiver::recv`. -/
inductive RecvErr where
  | NoMessage
  | NoSender
  deriving Repr, DecidableEq

/-- The shared state of one SPSC channel: the heap of live nodes (an
association list kept in chain order), the Sender's `back` cursor, the
Receiver's `front` cursor, a bump allocator for fresh even addresses, and
the list of addresses handed back to the allocator (in deallocation
order). -/
structure Chan (T : Type) where
  heap : List (Nat × Node T)
  back : Nat
  front : Nat
  alloc : Nat
  freed : List Nat
  deriving Repr, DecidableEq

/-- Look an address up in the heap. -/
def hfind : List (Nat × Node T) → Nat → Option (Node T)
  | [], _ => none
  | (b, n) :: h, a => if b = a then some n else hfind h a

/-- Overwrite the node stored at an address. -/
def hupdate : List (Nat × Node T) → Nat → Node T → List (Nat × Node T)
  | [], _, _ => []
  | (b, n) :: h, a, m => if b = a then (b, m) :: h else (b, n) :: hupdate h a m

/-- Deallocate the node stored at an address. -/
def hremove : List (Nat × Node T) → Nat → List (Nat × Node T)
  | [], _ => []
  | (b, n) :: h, a => if b = a then h else (b, n) :: hremove h a

/-- `channel()`: allocate one sentinel node (empty payload, null link) and
start both cursors on it. -/
def channel (T : Type) : Chan T :=
  { heap := [(2, { val := none, next := 0 })]
    back := 2
    front := 2
    alloc := 4
    freed := [] }

/-- `Sender::send(val)`: allocate a new node holding the value with a null
link, then compare-and-swap the back node's link from null to the new
address.  On success the back cursor moves to the new node; on failure the
new node is freed and the error hands the value back.  `none` models a
dangling back cursor (unreachable in well-formed states). -/
def send (c : Chan T) (v : T) : Option (Except (NoRecv T) Unit × Chan T) :=
  let nnptr := c.alloc
  match hfind c.heap c.back with
  | none => none
  | some node =>
      if node.next = 0 then
        some (Except.ok (),
          { c with
              heap := hupdate c.heap c.back { val := node.val, next := nnptr }
                        ++ [(nnptr, { val := some v, next := 0 })]
              back := nnptr
              alloc := nnptr + 2 })
      else
        some (Except.error { message := v },
          { c with alloc := nnptr + 2, freed := c.freed ++ [nnptr] })

/-- One pass of the `Receiver::recv` loop, with fuel standing in for the
loop itself.  At the front node: a present payload is taken (the slot is
cleared), the link is masked by `& !1` and followed when non-null (freeing
the old front); with no payload, an even non-null link advances the cursor
and the loop repeats, a null link yields `NoMessage`, and an odd (tagged)
link yields `NoSender`. -/
def recvAux : Nat → Chan T → Option (Except RecvErr T × Chan T)
  | 0, _ => none
  | fuel + 1, c =>
      match hfind c.heap c.front with
      | none => none
      | some node =>
          match node.val with
          | some v =>
              let h1 := hupdate c.heap c.front { val := none, next := node.next }
              let masked := node.next - node.next % 2
              if masked = 0 then
                some (Except.ok v, { c with heap := h1 })
              else
                some (Except.ok v,
                  { c with
                      heap := hremove h1 c.front
                      front := masked
                      freed := c.freed ++ [c.front] })
          | none =>
              if node.next % 2 = 0 then
                if node.next = 0 then
                  some (Except.error RecvErr.NoMessage, c)
                else
                  recvAux fuel
                    { c with
                        heap := hremove c.heap c.front
                        front := node.next
                        freed := c.freed ++ [c.front] }
              else
                some (Except.error RecvErr.NoSender, c)

/-- `Receiver::recv()`: run the loop with enough fuel to visit every live
node once. -/
def recv (c : Chan T) : Option (Except RecvErr T × Chan T) :=
  recvAux (c.heap.length + 1) c

/-- `impl Drop for Sender`: compare-and-swap the back node's link from null
to the closed tag; when the link already held a non-null value, free the
back node. -/
def senderDrop (c : Chan T) : Option (Chan T) :=
  match hfind c.heap c.back with
  | none => none
  | some node =>
      if node.next = 0 then
        some { c with heap := hupdate c.heap c.back { val := node.val, next := 1 } }
      else
        some { c with
                 heap := hremove c.heap c.back
                 freed := c.freed ++ [c.back] }

/-- The loop of `impl Drop for Receiver`, with fuel standing in for the
loop: compare-and-swap the front node's link from null to the closed tag;
on success stop (the front node stays allocated); otherwise free the front
node, stop if the link was tagged, and continue at the successor. -/
def receiverDropAux : Nat → Chan T → Option (Chan T)
  | 0, _ => none
  | fuel + 1, c =>
      match hfind c.heap c.front with
      | none => none
      | some node =>
          if node.next = 0 then
            some { c with heap := hupdate c.heap c.front { val := node.val, next := 1 } }
          else
            let c1 : Chan T :=
              { c with
                  heap := hremove c.heap c.front
                  freed := c.freed ++ [c.front] }
            if node.next % 2 = 1 then
              some c1
            else
              receiverDropAux fuel { c1 with front := node.next }

/-- `impl Drop for Receiver`. -/
def receiverDrop (c : Chan T) : Option (Chan T) :=
  receiverDropAux (c.heap.length + 1) c

/-- The values currently buffered in the channel, in chain order. -/
def pending (c : Chan T) : List T :=
  c.heap.filterMap fun p => p.2.val

/-- Well-formedness of a live channel (both endpoints still connected):
the heap lists the chain nodes in order from the front cursor to the back
cursor, consecutive links agree, the last link is null, every node after
the front one still holds its payload, addresses are strictly increasing
even numbers at least 2 and below the allocator mark, and the allocator
mark is even and at least 2. -/
structure Wf (c : Chan T) : Prop where
  hne : c.heap ≠ []
  hfront : c.heap.head?.map Prod.fst = some c.front
  hback : c.heap.getLast?.map Prod.fst = some c.back
  hlink : List.Chain' (fun p q => p.2.next = q.1) c.heap
  hlast : ∀ p ∈ c.heap.getLast?, p.2.next = 0
  hvals : ∀ p ∈ c.heap, p.1 ≠ c.front → (p.2.val).isSome = true
  hsorted : (c.heap.map Prod.fst).Pairwise (· < ·)
  heven : ∀ p ∈ c.heap, p.1 % 2 = 0
  hpos : ∀ p ∈ c.heap, 2 ≤ p.1
  hbound : ∀ p ∈ c.heap, p.1 < c.alloc
  halloc : c.alloc % 2 = 0
  hapos : 2 ≤ c.alloc

end Spsc


namespace Spsc

theorem hfind_cons_self (a : Nat) (n : Node T) (h : List (Nat × Node T)) :
    hfind ((a, n) :: h) a = some n := by
  simp [hfind]

theorem hfind_append_right (h1 h2 : List (Nat × Node T)) (a : Nat)
    (ha : a ∉ h1.map Prod.fst) : hfind (h1 ++ h2) a = hfind h2 a := by
  induction h1 with
  | nil => rfl
  | cons p h1 ih =>
      obtain ⟨b, n⟩ := p
      simp only [List.map_cons, List.mem_cons, not_or] at ha
      show (if b = a then some n else hfind (h1 ++ h2) a) = hfind h2 a
      rw [if_neg (Ne.symm ha.1), ih ha.2]

theorem hupdate_cons_self (a : Nat) (n m : Node T) (h : List (Nat × Node T)) :
    hupdate ((a, n) :: h) a m = (a, m) :: h := by
  simp [hupdate]

theorem hupdate_append_right (h1 h2 : List (Nat × Node T)) (a : Nat) (m : Node T)
    (ha : a ∉ h1.map Prod.fst) : hupdate (h1 ++ h2) a m = h1 ++ hupdate h2 a m := by
  induction h1 with
  | nil => rfl
  | cons p h1 ih =>
      obtain ⟨b, n⟩ := p
      simp only [List.map_cons, List.mem_cons, not_or] at ha
      show (if b = a then (b, m) :: (h1 ++ h2) else (b, n) :: hupdate (h1 ++ h2) a m)
          = (b, n) :: (h1 ++ hupdate h2 a m)
      rw [if_neg (Ne.symm ha.1), ih ha.2]

theorem hremove_cons_self (a : Nat) (n : Node T) (h : List (Nat × Node T)) :
    hremove ((a, n) :: h) a = h := by
  simp [hremove]

/-- In a well-formed channel, a successful `send` appends the value: the
swap on the back node's link succeeds, the back cursor moves to the fresh
node, the buffered values gain `v` at the end, and nothing is freed. -/
theorem send_ok (c : Chan T) (v : T) (w : Wf c) :
    ∃ c', send c v = some (Except.ok (), c') ∧ Wf c' ∧
      pending c' = pending c ++ [v] ∧ c'.freed = c.freed ∧
      c'.back = c.alloc ∧ c'.front = c.front ∧ c'.alloc = c.alloc + 2 := by
  obtain ⟨L, bk, fr, al, fd⟩ := c
  obtain ⟨hne, hfront, hback, hlink, hlast, hvals, hsorted, heven, hpos, hbound,
    halloc, hapos⟩ := w
  rcases List.eq_nil_or_concat L with rfl | ⟨d, p, rfl⟩
  · exact absurd rfl hne
  obtain ⟨pa, pn⟩ := p
  simp only [List.concat_eq_append] at *
  have hpa : pa = bk := by
    rw [List.getLast?_concat] at hback
    simpa using hback
  subst hpa
  have hnext : pn.next = 0 := hlast (pa, pn) (by simp [List.getLast?_concat])
  have hsorted' : (d.map Prod.fst ++ [pa]).Pairwise (· < ·) := by
    simpa using hsorted
  have hnotmem : pa ∉ d.map Prod.fst := fun hm =>
    lt_irrefl pa ((List.pairwise_append.mp hsorted').2.2 pa hm pa
      (List.mem_singleton_self pa))
  have hfind_back : hfind (d ++ [(pa, pn)]) pa = some pn := by
    rw [hfind_append_right _ _ _ hnotmem, hfind_cons_self]
  have hupd : hupdate (d ++ [(pa, pn)]) pa { val := pn.val, next := al } =
      d ++ [(pa, { val := pn.val, next := al })] := by
    rw [hupdate_append_right _ _ _ _ hnotmem, hupdate_cons_self]
  have hbkal : pa < al := hbound (pa, pn) (by simp)
  refine ⟨{ heap := d ++ [(pa, { val := pn.val, next := al }),
                          (al, { val := some v, next := 0 })],
            back := al, front := fr, alloc := al + 2, freed := fd },
    ?_, ?_, ?_, rfl, rfl, rfl, rfl⟩
  · -- the send computation itself
    simp only [send, hfind_back]
    rw [if_pos hnext, hupd]
    simp
  · -- well-formedness of the post-send channel
    refine ⟨?_, ?_, ?_, ?_, ?_, ?_, ?_, ?_, ?_, ?_, ?_, ?_⟩
    · simp
    · rcases d with _ | ⟨q, d'⟩ <;> simpa using hfront
    · rw [show d ++ [(pa, { val := pn.val, next := al }),
            (al, ({ val := some v, next := 0 } : Node T))] =
          (d ++ [(pa, { val := pn.val, next := al })]) ++
            [(al, ({ val := some v, next := 0 } : Node T))] by simp,
        List.getLast?_concat]
      rfl
    · have hsplit := List.chain'_append.mp hlink
      refine List.chain'_append.mpr ⟨hsplit.1, ?_, ?_⟩
      · exact List.chain'_cons.mpr ⟨rfl, List.chain'_singleton _⟩
      · intro a ha b hb
        simp only [List.head?_cons, Option.mem_def, Option.some.injEq] at hb
        subst hb
        exact hsplit.2.2 a ha (pa, pn) (by simp)
    · intro q hq
      rw [show d ++ [(pa, { val := pn.val, next := al }),
            (al, ({ val := some v, next := 0 } : Node T))] =
          (d ++ [(pa, { val := pn.val, next := al })]) ++
            [(al, ({ val := some v, next := 0 } : Node T))] by simp,
        List.getLast?_concat] at hq
      simp only [Option.mem_def, Option.some.injEq] at hq
      subst hq
      rfl
    · intro q hq hqf
      rcases List.mem_append.mp hq with hq | hq
      · exact hvals q (List.mem_append_left _ hq) hqf
      · simp only [List.mem_cons, List.not_mem_nil, or_false] at hq
        rcases hq with hq | hq
        · subst hq
          simpa using hvals (pa, pn)
            (List.mem_append_right _ (List.mem_singleton_self _)) hqf
        · subst hq
          rfl
    · have hmk : ((d ++ [(pa, { val := pn.val, next := al }),
            (al, ({ val := some v, next := 0 } : Node T))]).map Prod.fst) =
          d.map Prod.fst ++ [pa, al] := by simp
      rw [hmk]
      refine List.pairwise_append.mpr ⟨(List.pairwise_append.mp hsorted').1, ?_, ?_⟩
      · exact List.pairwise_cons.mpr ⟨by simpa using hbkal, by simp⟩
      · intro x hx b hb
        have hxpa : x < pa :=
          (List.pairwise_append.mp hsorted').2.2 x hx pa (List.mem_singleton_self pa)
        simp only [List.mem_cons, List.not_mem_nil, or_false] at hb
        rcases hb with hb | hb
        · exact hb ▸ hxpa
        · exact hb ▸ hxpa.trans hbkal
    · intro q hq
      rcases List.mem_append.mp hq with hq | hq
      · exact heven q (List.mem_append_left _ hq)
      · simp only [List.mem_cons, List.not_mem_nil, or_false] at hq
        rcases hq with hq | hq
        · subst hq
          exact heven (pa, pn) (List.mem_append_right _ (List.mem_singleton_self _))
        · subst hq
          exact halloc
    · intro q hq
      rcases List.mem_append.mp hq with hq | hq
      · exact hpos q (List.mem_append_left _ hq)
      · simp only [List.mem_cons, List.not_mem_nil, or_false] at hq
        rcases hq with hq | hq
        · subst hq
          exact hpos (pa, pn) (List.mem_append_right _ (List.mem_singleton_self _))
        · subst hq
          exact hapos
    · intro q hq
      rcases List.mem_append.mp hq with hq | hq
      · have := hbound q (List.mem_append_left _ hq)
        show q.1 < al + 2
        omega
      · simp only [List.mem_cons, List.not_mem_nil, or_false] at hq
        rcases hq with hq | hq
        · subst hq
          show pa < al + 2
          omega
        · subst hq
          show al < al + 2
          omega
    · show (al + 2) % 2 = 0
      omega
    · show 2 ≤ al + 2
      omega
  · -- the buffered values gain `v` at the end
    rcases hpv : pn.val with _ | u <;>
      simp [pending, List.filterMap_append, List.filterMap_cons, hpv]

end Spsc

namespace Spsc

/-- Advancing past the front node preserves well-formedness: the tail of a
well-formed chain, cursored at its first node, is again well-formed (with
any deallocation record). -/
theorem Wf_tail {qa ba : Nat} {qn bn : Node T} {rest' : List (Nat × Node T)}
    {bk al : Nat} {fd fd' : List Nat}
    (w : Wf ⟨(qa, qn) :: (ba, bn) :: rest', bk, qa, al, fd⟩) :
    Wf ⟨(ba, bn) :: rest', bk, ba, al, fd'⟩ := by
  obtain ⟨hne, hfront, hback, hlink, hlast, hvals, hsorted, heven, hpos, hbound,
    halloc, hapos⟩ := w
  refine ⟨?_, ?_, ?_, ?_, ?_, ?_, ?_, ?_, ?_, ?_, ?_, ?_⟩
  · simp
  · simp
  · simpa only [List.getLast?_cons_cons] using hback
  · exact hlink.tail
  · intro p hp
    exact hlast p (by simpa only [List.getLast?_cons_cons] using hp)
  · intro p hp _
    have hqa : qa < p.1 := by
      have := (List.pairwise_cons.mp hsorted).1 p.1
        (List.mem_map_of_mem Prod.fst hp)
      exact this
    exact hvals p (List.mem_cons_of_mem _ hp) (Nat.ne_of_gt hqa)
  · exact hsorted.of_cons
  · intro p hp
    exact heven p (List.mem_cons_of_mem _ hp)
  · intro p hp
    exact hpos p (List.mem_cons_of_mem _ hp)
  · intro p hp
    exact hbound p (List.mem_cons_of_mem _ hp)
  · exact halloc
  · exact hapos

/-- Behaviour of the `recv` loop on a well-formed channel with enough fuel:
with no buffered value it reports `NoMessage` and leaves the channel
untouched; otherwise it dequeues exactly the oldest buffered value and
preserves well-formedness, the back cursor and the allocator mark. -/
theorem recvAux_ok (fuel : Nat) :
    ∀ (c : Chan T), Wf c → c.heap.length < fuel →
      (pending c = [] → recvAux fuel c = some (Except.error RecvErr.NoMessage, c)) ∧
      (∀ v vs, pending c = v :: vs →
        ∃ c', recvAux fuel c = some (Except.ok v, c') ∧ Wf c' ∧ pending c' = vs ∧
          c'.back = c.back ∧ c'.alloc = c.alloc) := by
  induction fuel with
  | zero =>
      intro c _ hf
      exact absurd hf (Nat.not_lt_zero _)
  | succ fuel ih =>
      intro c w hf
      obtain ⟨L, bk, fr, al, fd⟩ := c
      have w' := w
      obtain ⟨hne, hfront, hback, hlink, hlast, hvals, hsorted, heven, hpos, hbound,
        halloc, hapos⟩ := w
      rcases L with _ | ⟨⟨qa, qn⟩, rest⟩
      · exact absurd rfl hne
      have hqa : qa = fr := by simpa using hfront
      subst hqa
      simp only [List.length_cons, Nat.succ_lt_succ_iff] at hf
      rcases hv : qn.val with _ | v
      · -- front payload already consumed
        rcases rest with _ | ⟨⟨ba, bn⟩, rest'⟩
        · -- single node: the link is null, recv reports NoMessage
          have hnext : qn.next = 0 := hlast (qa, qn) (by simp)
          constructor
          · intro _
            simp only [recvAux, hfind_cons_self, hv, hnext]
            rfl
          · intro v vs hpend
            simp [pending, hv] at hpend
        · -- a successor exists: advance the cursor and repeat
          have hba : qn.next = ba := by
            have := List.chain'_cons.mp hlink
            exact this.1
          have hbaeven : ba % 2 = 0 :=
            heven (ba, bn) (List.mem_cons_of_mem _ (List.mem_cons_self _ _))
          have hbapos : 2 ≤ ba :=
            hpos (ba, bn) (List.mem_cons_of_mem _ (List.mem_cons_self _ _))
          have hbane : ba ≠ 0 := by omega
          have hstep : recvAux (fuel + 1)
                (⟨(qa, qn) :: (ba, bn) :: rest', bk, qa, al, fd⟩ : Chan T) =
              recvAux fuel ⟨(ba, bn) :: rest', bk, ba, al, fd ++ [qa]⟩ := by
            simp only [recvAux, hfind_cons_self, hv, hba, hbaeven, hremove_cons_self]
            rw [if_pos trivial, if_neg hbane]
          have w2 : Wf (⟨(ba, bn) :: rest', bk, ba, al, fd ++ [qa]⟩ : Chan T) :=
            Wf_tail w'
          have hlen : ((ba, bn) :: rest').length < fuel := by
            simpa using hf
          have hpend2 : pending (⟨(ba, bn) :: rest', bk, ba, al, fd ++ [qa]⟩ : Chan T) =
              pending (⟨(qa, qn) :: (ba, bn) :: rest', bk, qa, al, fd⟩ : Chan T) := by
            simp [pending, hv]
          have hrec := ih ⟨(ba, bn) :: rest', bk, ba, al, fd ++ [qa]⟩ w2 hlen
          constructor
          · intro hp
            -- impossible: the successor node still holds its payload, so the
            -- buffer cannot be empty here
            exfalso
            have hsome : bn.val.isSome = true := by
              have hqb : qa < ba := by
                have := (List.pairwise_cons.mp hsorted).1 ba (by simp)
                exact this
              exact hvals (ba, bn) (List.mem_cons_of_mem _ (List.mem_cons_self _ _))
                (Nat.ne_of_gt hqb)
            rcases hbn : bn.val with _ | u
            · rw [hbn] at hsome
              cases hsome
            · simp [pending, hv, hbn] at hp
          · intro v vs hpend
            obtain ⟨c', hrun, wc', hpendc', hbkc', halc'⟩ :=
              hrec.2 v vs (by rw [hpend2]; exact hpend)
            exact ⟨c', by rw [hstep]; exact hrun, wc', hpendc', hbkc', halc'⟩
      · -- front node holds a payload: it is taken
        constructor
        · intro hpend
          simp [pending, hv] at hpend
        · intro v' vs hpend
          have hv' : v' = v ∧ vs = rest.filterMap fun p => p.2.val := by
            have : pending (⟨(qa, qn) :: rest, bk, qa, al, fd⟩ : Chan T) =
                v :: rest.filterMap fun p => p.2.val := by
              simp [pending, hv]
            rw [this] at hpend
            exact ⟨(List.cons.injEq _ _ _ _ ▸ hpend).1.symm,
              (List.cons.injEq _ _ _ _ ▸ hpend).2.symm⟩
          obtain ⟨rfl, rfl⟩ := hv'
          rcases rest with _ | ⟨⟨ba, bn⟩, rest'⟩
          · -- no successor: the payload slot is emptied, the cursor stays
            have hnext : qn.next = 0 := hlast (qa, qn) (by simp)
            have hqabk : qa = bk := by simpa using hback
            refine ⟨⟨[(qa, { val := none, next := qn.next })], bk, qa, al, fd⟩,
              ?_, ?_, ?_, rfl, rfl⟩
            · simp only [recvAux, hfind_cons_self, hv, hnext, hupdate_cons_self]
              rw [if_pos trivial]
            · refine ⟨by simp, by simp, by simpa using hqabk, ?_, ?_, ?_, ?_, ?_, ?_,
                ?_, halloc, hapos⟩
              · simp [List.chain'_singleton]
              · intro p hp
                simp only [Option.mem_def, List.getLast?_singleton,
                  Option.some.injEq] at hp
                subst hp
                simpa using hnext
              · intro p hp hpf
                simp only [List.mem_singleton] at hp
                subst hp
                exact absurd rfl hpf
              · simp
              · intro p hp
                simp only [List.mem_singleton] at hp
                subst hp
                exact heven (qa, qn) (List.mem_cons_self _ _)
              · intro p hp
                simp only [List.mem_singleton] at hp
                subst hp
                exact hpos (qa, qn) (List.mem_cons_self _ _)
              · intro p hp
                simp only [List.mem_singleton] at hp
                subst hp
                exact hbound (qa, qn) (List.mem_cons_self _ _)
            · simp [pending]
          · -- a successor exists: advance the cursor, freeing the old node
            have hba : qn.next = ba := (List.chain'_cons.mp hlink).1
            have hbaeven : ba % 2 = 0 :=
              heven (ba, bn) (List.mem_cons_of_mem _ (List.mem_cons_self _ _))
            have hbapos : 2 ≤ ba :=
              hpos (ba, bn) (List.mem_cons_of_mem _ (List.mem_cons_self _ _))
            have hmasked : qn.next - qn.next % 2 = ba := by
              rw [hba]
              omega
            refine ⟨⟨(ba, bn) :: rest', bk, ba, al, fd ++ [qa]⟩, ?_, Wf_tail w', ?_,
              rfl, rfl⟩
            · simp only [recvAux, hfind_cons_self, hv, hmasked, hupdate_cons_self,
                hremove_cons_self]
              rw [if_neg (by omega : ¬ ba = 0)]
            · simp [pending]

end Spsc

namespace Spsc

/-- `Receiver::recv` on a well-formed channel: `NoMessage` on an empty
buffer (channel untouched), otherwise the oldest buffered value. -/
theorem recv_ok (c : Chan T) (w : Wf c) :
    (pending c = [] → recv c = some (Except.error RecvErr.NoMessage, c)) ∧
    (∀ v vs, pending c = v :: vs →
      ∃ c', recv c = some (Except.ok v, c') ∧ Wf c' ∧ pending c' = vs ∧
        c'.back = c.back ∧ c'.alloc = c.alloc) :=
  recvAux_ok (c.heap.length + 1) c w (Nat.lt_succ_self _)

/-- The freshly created channel is well-formed. -/
theorem Wf_channel (T : Type) : Wf (channel T) := by
  refine ⟨?_, ?_, ?_, ?_, ?_, ?_, ?_, ?_, ?_, ?_, ?_, ?_⟩ <;>
    simp [channel, List.chain'_singleton]

/-- The freshly created channel buffers nothing. -/
theorem pending_channel (T : Type) : pending (channel T) = [] := by
  simp [pending, channel]

/-- Operations a producer/consumer pair can perform on the live channel. -/
inductive COp (T : Type) where
  | send (v : T)
  | recv

/-- A channel together with the history of accepted sends and successful
receives, in order. -/
structure Trace (T : Type) where
  chan : Chan T
  sent : List T
  recvd : List T

/-- Perform one operation, recording accepted sends and received values. -/
def runOp (t : Trace T) : COp T → Trace T
  | .send v =>
      match send t.chan v with
      | some (Except.ok _, c') => { chan := c', sent := t.sent ++ [v], recvd := t.recvd }
      | some (Except.error _, c') => { t with chan := c' }
      | none => t
  | .recv =>
      match recv t.chan with
      | some (Except.ok v, c') => { chan := c', sent := t.sent, recvd := t.recvd ++ [v] }
      | some (Except.error _, c') => { t with chan := c' }
      | none => t

/-- Run a sequence of operations. -/
def runOps (t : Trace T) (ops : List (COp T)) : Trace T :=
  ops.foldl runOp t

/-- The values a sequence of operations asks to send, in order. -/
def sends : List (COp T) → List T
  | [] => []
  | COp.send v :: l => v :: sends l
  | COp.recv :: l => sends l

/-- The trace starting from a freshly created channel. -/
def initTrace (T : Type) : Trace T :=
  { chan := channel T, sent := [], recvd := [] }

/-- Main channel invariant: along any sequence of operations from a
well-formed state whose history balances (`recvd ++ pending = sent`), the
channel stays well-formed, every send is accepted, and the balance is
preserved. -/
theorem runOps_inv (ops : List (COp T)) :
    ∀ t : Trace T, Wf t.chan → t.recvd ++ pending t.chan = t.sent →
      Wf (runOps t ops).chan ∧
      (runOps t ops).sent = t.sent ++ sends ops ∧
      (runOps t ops).recvd ++ pending (runOps t ops).chan = (runOps t ops).sent := by
  induction ops with
  | nil =>
      intro t w hinv
      exact ⟨w, by simp [runOps, sends], by simpa [runOps] using hinv⟩
  | cons op ops ih =>
      intro t w hinv
      have hstep : runOps t (op :: ops) = runOps (runOp t op) ops := rfl
      cases op with
      | send v =>
          obtain ⟨c', hs, wc', hpend, _, _, _, _⟩ := send_ok t.chan v w
          have hop : runOp t (COp.send v) =
              ⟨c', t.sent ++ [v], t.recvd⟩ := by
            simp [runOp, hs]
          have hinv' : (⟨c', t.sent ++ [v], t.recvd⟩ : Trace T).recvd ++
              pending (⟨c', t.sent ++ [v], t.recvd⟩ : Trace T).chan =
              (⟨c', t.sent ++ [v], t.recvd⟩ : Trace T).sent := by
            simp only [hpend, ← List.append_assoc, hinv]
          obtain ⟨w2, hsent2, hbal2⟩ := ih ⟨c', t.sent ++ [v], t.recvd⟩ wc' hinv'
          rw [hstep, hop]
          exact ⟨w2, by simpa [sends, List.append_assoc] using hsent2, hbal2⟩
      | recv =>
          have hrecv := recv_ok t.chan w
          rcases hp : pending t.chan with _ | ⟨v, vs⟩
          · have hop : runOp t COp.recv = t := by
              simp [runOp, hrecv.1 hp]
            rw [hstep, hop]
            obtain ⟨w2, hsent2, hbal2⟩ := ih t w hinv
            exact ⟨w2, by simpa [sends] using hsent2, hbal2⟩
          · obtain ⟨c', hr, wc', hpend', _, _⟩ := hrecv.2 v vs hp
            have hop : runOp t COp.recv = ⟨c', t.sent, t.recvd ++ [v]⟩ := by
              simp [runOp, hr]
            have hinv' : (⟨c', t.sent, t.recvd ++ [v]⟩ : Trace T).recvd ++
                pending (⟨c', t.sent, t.recvd ++ [v]⟩ : Trace T).chan =
                (⟨c', t.sent, t.recvd ++ [v]⟩ : Trace T).sent := by
            -- recvd ++ [v] ++ vs = recvd ++ (v :: vs) = recvd ++ pending = sent
              simp only [hpend', List.append_assoc, List.singleton_append]
              rw [← hp, hinv]
            obtain ⟨w2, hsent2, hbal2⟩ := ih ⟨c', t.sent, t.recvd ++ [v]⟩ wc' hinv'
            rw [hstep, hop]
            exact ⟨w2, by simpa [sends] using hsent2, hbal2⟩

end Spsc

namespace Spsc

/-- The `Receiver::drop` walk on a well-formed channel: every node strictly
before the final one is freed in chain order, the final node (the one with
the null link, which is the Sender's back node) gets the closed tag written
into its link and stays allocated. -/
theorem receiverDropAux_ok (fuel : Nat) :
    ∀ (c : Chan T), Wf c → c.heap.length < fuel →
      ∃ n : Node T, c.heap.getLast? = some (c.back, n) ∧
        receiverDropAux fuel c = some
          ⟨[(c.back, { val := n.val, next := 1 })], c.back, c.back, c.alloc,
            c.freed ++ (c.heap.map Prod.fst).dropLast⟩ := by
  induction fuel with
  | zero =>
      intro c _ hf
      exact absurd hf (Nat.not_lt_zero _)
  | succ fuel ih =>
      intro c w hf
      obtain ⟨L, bk, fr, al, fd⟩ := c
      have w' := w
      obtain ⟨hne, hfront, hback, hlink, hlast, hvals, hsorted, heven, hpos, hbound,
        halloc, hapos⟩ := w
      rcases L with _ | ⟨⟨qa, qn⟩, rest⟩
      · exact absurd rfl hne
      have hqa : qa = fr := by simpa using hfront
      subst hqa
      simp only [List.length_cons, Nat.succ_lt_succ_iff] at hf
      rcases rest with _ | ⟨⟨ba, bn⟩, rest'⟩
      · -- final node: the tag swap succeeds, the node is not freed
        have hnext : qn.next = 0 := hlast (qa, qn) (by simp)
        have hqabk : qa = bk := by simpa using hback
        subst hqabk
        refine ⟨qn, by simp, ?_⟩
        simp only [receiverDropAux, hfind_cons_self, hnext, hupdate_cons_self]
        rw [if_pos trivial]
        simp
      · -- the front node is freed and the walk continues at the successor
        have hba : qn.next = ba := (List.chain'_cons.mp hlink).1
        have hbaeven : ba % 2 = 0 :=
          heven (ba, bn) (List.mem_cons_of_mem _ (List.mem_cons_self _ _))
        have hbapos : 2 ≤ ba :=
          hpos (ba, bn) (List.mem_cons_of_mem _ (List.mem_cons_self _ _))
        have w2 : Wf (⟨(ba, bn) :: rest', bk, ba, al, fd ++ [qa]⟩ : Chan T) :=
          Wf_tail w'
        have hlen : ((ba, bn) :: rest').length < fuel := by simpa using hf
        obtain ⟨n, hlastn, hrun⟩ := ih ⟨(ba, bn) :: rest', bk, ba, al, fd ++ [qa]⟩ w2 hlen
        refine ⟨n, by simpa only [List.getLast?_cons_cons] using hlastn, ?_⟩
        have hstep : receiverDropAux (fuel + 1)
              (⟨(qa, qn) :: (ba, bn) :: rest', bk, qa, al, fd⟩ : Chan T) =
            receiverDropAux fuel ⟨(ba, bn) :: rest', bk, ba, al, fd ++ [qa]⟩ := by
          simp only [receiverDropAux, hfind_cons_self, hba, hremove_cons_self]
          rw [if_neg (by omega : ¬ ba = 0), if_neg (by omega : ¬ ba % 2 = 1)]
        rw [hstep, hrun]
        simp [List.dropLast_cons₂, List.append_assoc]

/-- `Receiver::drop` on a live well-formed channel. -/
theorem receiverDrop_ok (c : Chan T) (w : Wf c) :
    ∃ n : Node T, c.heap.getLast? = some (c.back, n) ∧
      receiverDrop c = some
        ⟨[(c.back, { val := n.val, next := 1 })], c.back, c.back, c.alloc,
          c.freed ++ (c.heap.map Prod.fst).dropLast⟩ :=
  receiverDropAux_ok (c.heap.length + 1) c w (Nat.lt_succ_self _)

/-- In a well-formed channel the back cursor is not among the addresses of
the nodes strictly before the final one. -/
theorem back_not_in_dropLast (c : Chan T) (w : Wf c) :
    c.back ∉ (c.heap.map Prod.fst).dropLast := by
  obtain ⟨L, bk, fr, al, fd⟩ := c
  obtain ⟨hne, hfront, hback, hlink, hlast, hvals, hsorted, heven, hpos, hbound,
    halloc, hapos⟩ := w
  rcases List.eq_nil_or_concat L with rfl | ⟨d, p, rfl⟩
  · exact absurd rfl hne
  obtain ⟨pa, pn⟩ := p
  simp only [List.concat_eq_append] at *
  have hpa : pa = bk := by
    rw [List.getLast?_concat] at hback
    simpa using hback
  subst hpa
  have hsorted' : (d.map Prod.fst ++ [pa]).Pairwise (· < ·) := by
    simpa using hsorted
  intro hm
  have hdl : ((d ++ [(pa, pn)]).map Prod.fst).dropLast = d.map Prod.fst := by
    simp
  rw [hdl] at hm
  exact lt_irrefl pa ((List.pairwise_append.mp hsorted').2.2 pa hm pa
    (List.mem_singleton_self pa))

end Spsc

namespace Hazard

/-- The body of one `critical(body)` call as atomic steps. -/
def criticalActs (body : List Act) : List Act :=
  Act.incr :: body ++ [Act.decr]

/-- One `later_drop` call as atomic steps: enqueue first, then the
check-counter-then-drain step. -/
def laterDropActs (g : Garbage) : List Act :=
  [Act.push g, Act.checkDrain]

/-- The garbage items pushed by a step sequence, in order. -/
def pushes : List Act → List Garbage
  | [] => []
  | Act.push g :: l => g :: pushes l
  | _ :: l => pushes l

theorem mem_pushes {g : Garbage} : ∀ {l : List Act}, Act.push g ∈ l → g ∈ pushes l := by
  intro l hl
  induction l with
  | nil => cases hl
  | cons a l ih =>
      rcases List.mem_cons.mp hl with h | h
      · rw [← h]
        simp [pushes]
      · cases a <;> simp [pushes, ih h]

theorem ilv_mem {xs ys zs : List Act} (h : Ilv xs ys zs) (a : Act) :
    a ∈ zs ↔ a ∈ xs ∨ a ∈ ys := by
  induction h with
  | nil => simp
  | left h ih =>
      simp only [List.mem_cons, ih]
      tauto
  | right h ih =>
      simp only [List.mem_cons, ih]
      tauto

theorem ilv_append_split {xs ys : List Act} (u w : List Act)
    (h : Ilv xs ys (u ++ w)) :
    ∃ xs1 xs2 ys1 ys2, xs = xs1 ++ xs2 ∧ ys = ys1 ++ ys2 ∧
      Ilv xs1 ys1 u ∧ Ilv xs2 ys2 w := by
  induction u generalizing xs ys with
  | nil => exact ⟨[], xs, [], ys, rfl, rfl, Ilv.nil, h⟩
  | cons a u ih =>
      cases h with
      | left h' =>
          obtain ⟨xs1, xs2, ys1, ys2, hx, hy, h1, h2⟩ := ih h'
          exact ⟨a :: xs1, xs2, ys1, ys2, by simp [hx], hy, Ilv.left h1, h2⟩
      | right h' =>
          obtain ⟨xs1, xs2, ys1, ys2, hx, hy, h1, h2⟩ := ih h'
          exact ⟨xs1, xs2, a :: ys1, ys2, hx, by simp [hy], Ilv.right h1, h2⟩

theorem step_counter (s : HState) (a : Act) (ha : a ≠ Act.decr) :
    (step s a).counter = s.counter + (if a = Act.incr then 1 else 0) := by
  cases a with
  | incr => simp [step]
  | decr => exact absurd rfl ha
  | noop => simp [step]
  | push g => simp [step]
  | checkDrain =>
      by_cases h : s.counter = 0 <;> simp [step, h]
  | teardown => simp [step]

theorem run_counter (l : List Act) (s : HState) (hd : Act.decr ∉ l) :
    (run l s).counter = s.counter + l.count Act.incr := by
  induction l generalizing s with
  | nil => simp [run]
  | cons a l ih =>
      have ha : a ≠ Act.decr := fun e => hd (e ▸ List.mem_cons_self a l)
      have hl : Act.decr ∉ l := fun h => hd (List.mem_cons_of_mem a h)
      rw [show run (a :: l) s = run l (step s a) from rfl, ih _ hl,
        step_counter s a ha]
      by_cases hai : a = Act.incr
      · subst hai
        simp [List.count_cons]
        omega
      · rw [if_neg hai]
        simp [List.count_cons, hai]

theorem run_no_drain (l : List Act) (s : HState)
    (hc : Act.checkDrain ∉ l) (ht : Act.teardown ∉ l) :
    (run l s).destroyed = s.destroyed ∧ (run l s).queue = s.queue ++ pushes l := by
  induction l generalizing s with
  | nil => simp [run, pushes]
  | cons a l ih =>
      have hc' : Act.checkDrain ∉ l := fun h => hc (List.mem_cons_of_mem a h)
      have ht' : Act.teardown ∉ l := fun h => ht (List.mem_cons_of_mem a h)
      have hrw : run (a :: l) s = run l (step s a) := rfl
      cases a with
      | incr => simpa [hrw, pushes, step] using ih (step s Act.incr) hc' ht'
      | decr => simpa [hrw, pushes, step] using ih (step s Act.decr) hc' ht'
      | noop => simpa [hrw, pushes, step] using ih (step s Act.noop) hc' ht'
      | push g =>
          have := ih (step s (Act.push g)) hc' ht'
          rw [hrw]
          refine ⟨this.1, ?_⟩
          rw [this.2]
          simp [step, pushes, GarbageQueue.add]
      | checkDrain => exact absurd (List.mem_cons_self _ _) hc
      | teardown => exact absurd (List.mem_cons_self _ _) ht

/-- Invariant: the already-destroyed items followed by the still-queued
items are exactly the items pushed so far, in order. -/
theorem run_sched (l : List Act) (s : HState) :
    (run l s).destroyed ++ (run l s).queue =
      s.destroyed ++ s.queue ++ pushes l := by
  induction l generalizing s with
  | nil => simp [run, pushes]
  | cons a l ih =>
      have hrw : run (a :: l) s = run l (step s a) := rfl
      rw [hrw, ih (step s a)]
      cases a with
      | incr => simp [step, pushes]
      | decr => simp [step, pushes]
      | noop => simp [step, pushes]
      | push g => simp [step, pushes, GarbageQueue.add]
      | checkDrain =>
          by_cases h : s.counter = 0 <;> simp [step, pushes, h]
      | teardown => simp [step, pushes]

end Hazard

/-- C1: for every sequence of operations on one channel (sends by the single
producer, `recv` polls by the single consumer, in any interleaving), every
send is accepted, and the values received so far followed by the values
still buffered are exactly the sent values in order — so a consumer that
polls `recv`, skipping `NoMessage` results, until it has collected all N
sent values receives exactly those N values in send order, with no loss and
no duplication. -/
theorem fifo_order_preserved (T : Type) (ops : List (Spsc.COp T)) :
    (Spsc.runOps (Spsc.initTrace T) ops).sent = Spsc.sends ops ∧
    (Spsc.runOps (Spsc.initTrace T) ops).recvd ++
      Spsc.pending (Spsc.runOps (Spsc.initTrace T) ops).chan = Spsc.sends ops := by
  have h := Spsc.runOps_inv ops (Spsc.initTrace T) (Spsc.Wf_channel T)
    (by simp [Spsc.initTrace, Spsc.pending_channel])
  refine ⟨?_, ?_⟩
  · have := h.2.1
    simpa [Spsc.initTrace] using this
  · rw [h.2.2]
    have := h.2.1
    simpa [Spsc.initTrace] using this

/-- C2: in any interleaving of one worker's critical section (increment,
body, decrement) with another worker's `later_drop g` (push, then
check-and-drain), if the drain attempt happens after the increment and
before the decrement — i.e. while the critical section is open — then when
that drain attempt completes no destructor has run and `g` is still
queued: `later_drop` drains only after reading the counter as zero, and the
open critical section holds it non-zero. -/
theorem later_drop_deferred_while_critical
    (body : List Hazard.Act) (hb : ∀ a ∈ body, a = Hazard.Act.noop)
    (g : Hazard.Garbage) (u v trace : List Hazard.Act)
    (hIlv : Hazard.Ilv (Hazard.criticalActs body) (Hazard.laterDropActs g) trace)
    (htr : trace = u ++ Hazard.Act.checkDrain :: v)
    (hincr : Hazard.Act.incr ∈ u) (hdecr : Hazard.Act.decr ∉ u) :
    (Hazard.run (u ++ [Hazard.Act.checkDrain]) ⟨0, [], []⟩).destroyed = [] ∧
    g ∈ (Hazard.run (u ++ [Hazard.Act.checkDrain]) ⟨0, [], []⟩).queue := by
  subst htr
  obtain ⟨xs1, xs2, ys1, ys2, hx, hy, h1, h2⟩ :=
    Hazard.ilv_append_split u (Hazard.Act.checkDrain :: v) hIlv
  have hnotin : ∀ a : Hazard.Act, a ∈ Hazard.criticalActs body →
      a = Hazard.Act.incr ∨ a = Hazard.Act.noop ∨ a = Hazard.Act.decr := by
    intro a ha
    simp only [Hazard.criticalActs] at ha
    rcases List.mem_cons.mp ha with ha | ha
    · exact Or.inl ha
    · rcases List.mem_append.mp ha with ha | ha
      · exact Or.inr (Or.inl (hb _ ha))
      · exact Or.inr (Or.inr (List.mem_singleton.mp ha))
  cases h2 with
  | left h2' =>
      exfalso
      have hm : Hazard.Act.checkDrain ∈ Hazard.criticalActs body := by
        rw [hx]
        exact List.mem_append_right _ (List.mem_cons_self _ _)
      rcases hnotin _ hm with h | h | h <;> exact Hazard.Act.noConfusion h
  | right h2' =>
      rcases ys1 with _ | ⟨b1, ys1'⟩
      · simp [Hazard.laterDropActs] at hy
      · simp only [Hazard.laterDropActs, List.cons_append, List.cons.injEq] at hy
        obtain ⟨hb1, hy2⟩ := hy
        subst hb1
        rcases ys1' with _ | ⟨b2, ys1''⟩
        · -- ys1 = [push g]: the push precedes the drain attempt inside u
          have humem : ∀ a : Hazard.Act, a ∈ u →
              a ∈ xs1 ∨ a = Hazard.Act.push g := by
            intro a ha
            rcases (Hazard.ilv_mem h1 a).mp ha with h | h
            · exact Or.inl h
            · simp only [List.mem_singleton] at h
              exact Or.inr h
          have hxs1sub : ∀ a : Hazard.Act, a ∈ xs1 →
              a = Hazard.Act.incr ∨ a = Hazard.Act.noop ∨ a = Hazard.Act.decr := by
            intro a ha
            exact hnotin a (by rw [hx]; exact List.mem_append_left _ ha)
          have hcd : Hazard.Act.checkDrain ∉ u := by
            intro hm
            rcases humem _ hm with h | h
            · rcases hxs1sub _ h with h' | h' | h' <;> exact Hazard.Act.noConfusion h'
            · exact Hazard.Act.noConfusion h
          have htd : Hazard.Act.teardown ∉ u := by
            intro hm
            rcases humem _ hm with h | h
            · rcases hxs1sub _ h with h' | h' | h' <;> exact Hazard.Act.noConfusion h'
            · exact Hazard.Act.noConfusion h
          have hrn := Hazard.run_no_drain u ⟨0, [], []⟩ hcd htd
          have hcnt : 0 < (Hazard.run u ⟨0, [], []⟩).counter := by
            rw [Hazard.run_counter u _ hdecr]
            have : 0 < u.count Hazard.Act.incr := List.count_pos_iff.mpr hincr
            omega
          rw [Hazard.run_append]
          have hstep : Hazard.run [Hazard.Act.checkDrain]
                (Hazard.run u ⟨0, [], []⟩) = Hazard.run u ⟨0, [], []⟩ := by
            show Hazard.step (Hazard.run u ⟨0, [], []⟩) Hazard.Act.checkDrain =
              Hazard.run u ⟨0, [], []⟩
            simp [Hazard.step, Nat.pos_iff_ne_zero.mp hcnt]
          rw [hstep]
          refine ⟨hrn.1, ?_⟩
          rw [hrn.2]
          have hpu : Hazard.Act.push g ∈ u :=
            (Hazard.ilv_mem h1 (Hazard.Act.push g)).mpr
              (Or.inr (List.mem_singleton_self _))
          simpa using Hazard.mem_pushes hpu
        · exfalso
          simp at hy2

/-- C3 counterexample: the claim says neither branch of Sender teardown
frees a node, but on a channel whose Receiver has already disconnected
(link of the sole node holds the closed tag `1`), `Sender::drop`'s swap
fails and the teardown frees the back node: the freed list gains address 2. -/
theorem sender_teardown_frees_a_node_cex :
    (Spsc.receiverDrop (Spsc.channel Nat)).bind Spsc.senderDrop =
      some (⟨[], 2, 2, 4, [2]⟩ : Spsc.Chan Nat) := by
  rfl

/-- C3 (amended): at Sender teardown the swap of the back node's link from
null to the closed tag is attempted; if the link was null the tag is
written and nothing is freed, and if the swap fails because the link
already held a non-null value, the disconnect signal is skipped and the
back node itself is freed. -/
theorem sender_teardown_branches (T : Type) (c : Spsc.Chan T) (n : Spsc.Node T)
    (h : Spsc.hfind c.heap c.back = some n) :
    (n.next = 0 → Spsc.senderDrop c =
        some { c with heap := Spsc.hupdate c.heap c.back { val := n.val, next := 1 } } ∧
      (Spsc.senderDrop c).map Spsc.Chan.freed = some c.freed) ∧
    (n.next ≠ 0 → Spsc.senderDrop c =
        some { c with heap := Spsc.hremove c.heap c.back,
                      freed := c.freed ++ [c.back] }) := by
  constructor
  · intro h0
    constructor
    · simp only [Spsc.senderDrop, h]
      rw [if_pos h0]
    · simp only [Spsc.senderDrop, h]
      rw [if_pos h0]
      rfl
  · intro h0
    simp only [Spsc.senderDrop, h]
    rw [if_neg h0]

/-- Witness for C3 (amended): the success branch on a fresh channel writes
the tag and frees nothing; the failure branch on a receiver-closed channel
frees the back node. -/
theorem sender_teardown_branches_witness :
    Spsc.senderDrop (Spsc.channel Nat) =
      some (⟨[(2, ⟨none, 1⟩)], 2, 2, 4, []⟩ : Spsc.Chan Nat) ∧
    Spsc.senderDrop (⟨[(2, ⟨none, 1⟩)], 2, 2, 4, []⟩ : Spsc.Chan Nat) =
      some (⟨[], 2, 2, 4, [2]⟩ : Spsc.Chan Nat) :=
  ⟨((sender_teardown_branches Nat (Spsc.channel Nat) ⟨none, 0⟩ rfl).1 rfl).1,
   (sender_teardown_branches Nat (⟨[(2, ⟨none, 1⟩)], 2, 2, 4, []⟩ : Spsc.Chan Nat)
      ⟨none, 1⟩ rfl).2 (by decide)⟩

/-- C4: `later_drop(g)` pushes `g` onto the local queue before the counter
is consulted; when the counter reads zero the entire local queue, including
the just-added item, is drained immediately, oldest first, the destructors
running in scheduling order; when the counter is non-zero the item merely
remains queued behind the earlier items. -/
theorem later_drop_push_then_drain (g : Hazard.Garbage) (s : Hazard.HState) :
    (s.counter = 0 → Hazard.later_drop g s =
        { counter := s.counter, queue := [],
          destroyed := s.destroyed ++ s.queue ++ [g] }) ∧
    (s.counter ≠ 0 → Hazard.later_drop g s =
        { counter := s.counter, queue := s.queue ++ [g],
          destroyed := s.destroyed }) := by
  constructor
  · intro h
    simp [Hazard.later_drop, Hazard.GarbageQueue.add, h,
      Hazard.GarbageQueue.delete_spec, List.append_assoc]
  · intro h
    simp [Hazard.later_drop, Hazard.GarbageQueue.add, h]

/-- Witness for C4 at a concrete state: with the counter at zero the queue
`[1, 2]` plus the new item `5` is drained in order; with the counter at one
the item is only enqueued. -/
theorem later_drop_push_then_drain_witness :
    Hazard.later_drop 5 ⟨0, [1, 2], []⟩ =
      ({ counter := 0, queue := [], destroyed := [1, 2, 5] } : Hazard.HState) ∧
    Hazard.later_drop 5 ⟨1, [1, 2], []⟩ =
      ({ counter := 1, queue := [1, 2, 5], destroyed := [] } : Hazard.HState) :=
  ⟨(later_drop_push_then_drain 5 ⟨0, [1, 2], []⟩).1 rfl,
   (later_drop_push_then_drain 5 ⟨1, [1, 2], []⟩).2 (by decide)⟩

/-- Witness for C2 at a concrete interleaving: the section opens, the other
worker pushes item 7 and attempts the drain while the section is still
open; nothing is destroyed and 7 stays queued. -/
theorem later_drop_deferred_while_critical_witness :
    (Hazard.run [Hazard.Act.incr, Hazard.Act.push 7, Hazard.Act.checkDrain]
      ⟨0, [], []⟩).destroyed = [] ∧
    7 ∈ (Hazard.run [Hazard.Act.incr, Hazard.Act.push 7, Hazard.Act.checkDrain]
      ⟨0, [], []⟩).queue :=
  later_drop_deferred_while_critical [] (by simp) 7
    [Hazard.Act.incr, Hazard.Act.push 7] [Hazard.Act.decr]
    [Hazard.Act.incr, Hazard.Act.push 7, Hazard.Act.checkDrain, Hazard.Act.decr]
    (Hazard.Ilv.left (Hazard.Ilv.right (Hazard.Ilv.right
      (Hazard.Ilv.left Hazard.Ilv.nil))))
    rfl (by decide) (by decide)

/-- C5: one pass of `recv` at the head cursor's node: a present payload is
taken out (the slot becomes empty) and returned, the cursor advancing to
the address named by the masked link — freeing the old node — exactly when
that masked link is non-null; with no payload, a null link returns
`NoMessage` without mutating anything, an odd (closed-tag) link returns
`NoSender`, and an even non-null link advances the cursor (freeing the old
node) and repeats the check. -/
theorem recv_head_node_cases (T : Type) (fuel : Nat) (c : Spsc.Chan T)
    (n : Spsc.Node T) (h : Spsc.hfind c.heap c.front = some n) :
    (∀ v, n.val = some v → n.next - n.next % 2 = 0 →
      Spsc.recvAux (fuel + 1) c = some (Except.ok v,
        { c with heap := Spsc.hupdate c.heap c.front ⟨none, n.next⟩ })) ∧
    (∀ v, n.val = some v → n.next - n.next % 2 ≠ 0 →
      Spsc.recvAux (fuel + 1) c = some (Except.ok v,
        { c with
            heap := Spsc.hremove
              (Spsc.hupdate c.heap c.front ⟨none, n.next⟩) c.front
            front := n.next - n.next % 2
            freed := c.freed ++ [c.front] })) ∧
    (n.val = none → n.next = 0 →
      Spsc.recvAux (fuel + 1) c =
        some (Except.error Spsc.RecvErr.NoMessage, c)) ∧
    (n.val = none → n.next % 2 = 1 →
      Spsc.recvAux (fuel + 1) c =
        some (Except.error Spsc.RecvErr.NoSender, c)) ∧
    (n.val = none → n.next % 2 = 0 → n.next ≠ 0 →
      Spsc.recvAux (fuel + 1) c = Spsc.recvAux fuel
        { c with heap := Spsc.hremove c.heap c.front, front := n.next,
                 freed := c.freed ++ [c.front] }) := by
  refine ⟨?_, ?_, ?_, ?_, ?_⟩
  · intro v hv hm
    simp only [Spsc.recvAux, h, hv]
    rw [if_pos hm]
  · intro v hv hm
    simp only [Spsc.recvAux, h, hv]
    rw [if_neg hm]
  · intro hv hz
    simp only [Spsc.recvAux, h, hv, hz]
    rfl
  · intro hv ho
    simp only [Spsc.recvAux, h, hv]
    rw [if_neg (by omega : ¬ n.next % 2 = 0)]
  · intro hv he hz
    simp only [Spsc.recvAux, h, hv]
    rw [if_pos he, if_neg hz]

/-- Witness for C5: on the fresh channel (front node empty, null link) the
pass returns `NoMessage` and leaves the channel unchanged. -/
theorem recv_head_node_cases_witness :
    Spsc.recvAux 1 (Spsc.channel Nat) =
      some (Except.error Spsc.RecvErr.NoMessage, Spsc.channel Nat) :=
  (recv_head_node_cases Nat 0 (Spsc.channel Nat) ⟨none, 0⟩ rfl).2.2.1 rfl rfl

/-- C6: when `send v` finds the back node's link non-null (the Receiver
disconnected and wrote the closed tag), the call fails, the just-allocated
node is discarded (the heap is unchanged, the fresh address goes straight
back to the allocator) and the error carries back exactly the original
value; in particular, dropping the Receiver of a fresh channel and then
sending returns that failure with the identical value. -/
theorem send_after_disconnect_returns_value (T : Type) (c : Spsc.Chan T)
    (v : T) (n : Spsc.Node T)
    (h : Spsc.hfind c.heap c.back = some n) (hn : n.next ≠ 0) :
    Spsc.send c v = some (Except.error { message := v },
      { c with alloc := c.alloc + 2, freed := c.freed ++ [c.alloc] }) ∧
    (∀ w : Nat, ((Spsc.receiverDrop (Spsc.channel Nat)).bind
        (fun c' => Spsc.send c' w)).map Prod.fst =
      some (Except.error { message := w })) := by
  constructor
  · simp only [Spsc.send, h]
    rw [if_neg hn]
  · intro w2
    rfl

/-- Witness for C6 on a receiver-closed channel: sending 42 fails and hands
42 back unchanged. -/
theorem send_after_disconnect_returns_value_witness :
    Spsc.send (⟨[(2, ⟨none, 1⟩)], 2, 2, 4, []⟩ : Spsc.Chan Nat) 42 =
      some (Except.error { message := 42 },
        (⟨[(2, ⟨none, 1⟩)], 2, 2, 6, [4]⟩ : Spsc.Chan Nat)) :=
  (send_after_disconnect_returns_value Nat
    (⟨[(2, ⟨none, 1⟩)], 2, 2, 4, []⟩ : Spsc.Chan Nat) 42 ⟨none, 1⟩ rfl
    (by decide)).1

/-- C7: an address scheduled exactly once (one `push g` anywhere in an
arbitrary sequence of counter, drain-attempt and teardown steps) has its
destructor run at most once, and exactly once when the sequence ends with
the worker-teardown drain. -/
theorem destructor_runs_at_most_once (l : List Hazard.Act) (g : Hazard.Garbage)
    (c0 : Nat) (h : (Hazard.pushes l).count g = 1) :
    (Hazard.run l ⟨c0, [], []⟩).destroyed.count g ≤ 1 ∧
    (∀ l', l = l' ++ [Hazard.Act.teardown] →
      (Hazard.run l ⟨c0, [], []⟩).destroyed.count g = 1) := by
  have hs := Hazard.run_sched l ⟨c0, [], []⟩
  simp only [List.append_nil, List.nil_append] at hs
  constructor
  · have hc := congrArg (fun t => t.count g) hs
    simp only [List.count_append] at hc
    omega
  · intro l' hl
    subst hl
    have hq : (Hazard.run (l' ++ [Hazard.Act.teardown]) ⟨c0, [], []⟩).queue = [] := by
      rw [Hazard.run_append]
      rfl
    rw [hq, List.append_nil] at hs
    rw [hs]
    exact h

/-- Witness for C7: schedule item 5 once and tear the worker down; the
destructor has run exactly once. -/
theorem destructor_runs_at_most_once_witness :
    (Hazard.pushes [Hazard.Act.push 5, Hazard.Act.teardown]).count 5 = 1 ∧
    (Hazard.run [Hazard.Act.push 5, Hazard.Act.teardown]
      ⟨0, [], []⟩).destroyed.count 5 = 1 :=
  ⟨by decide,
   (destructor_runs_at_most_once [Hazard.Act.push 5, Hazard.Act.teardown] 5 0
      (by decide)).2 [Hazard.Act.push 5] rfl⟩

/-- C8: `try_delete_local` adds nothing to the queue (the queue either
drains to empty or stays exactly as it was); with the counter at zero it
drains the entire local queue and reports success, and with a non-zero
counter it leaves the state untouched and reports failure. -/
theorem try_delete_drains_iff_counter_zero (s : Hazard.HState) :
    (s.counter = 0 → Hazard.try_delete_local s =
        (Except.ok (), (⟨s.counter, [], s.destroyed ++ s.queue⟩ : Hazard.HState))) ∧
    (s.counter ≠ 0 → Hazard.try_delete_local s = (Except.error (), s)) ∧
    ((Hazard.try_delete_local s).2.queue = [] ∨
      (Hazard.try_delete_local s).2.queue = s.queue) := by
  refine ⟨?_, ?_, ?_⟩
  · intro h
    simp [Hazard.try_delete_local, h, Hazard.GarbageQueue.delete_spec]
  · intro h
    simp [Hazard.try_delete_local, h]
  · by_cases h : s.counter = 0 <;>
      simp [Hazard.try_delete_local, h, Hazard.GarbageQueue.delete_spec]

/-- Witness for C8 at concrete states: counter zero drains `[4, 9]` and
succeeds; counter three is a no-op that fails. -/
theorem try_delete_drains_iff_counter_zero_witness :
    Hazard.try_delete_local ⟨0, [4, 9], []⟩ =
      (Except.ok (), (⟨0, [], [4, 9]⟩ : Hazard.HState)) ∧
    Hazard.try_delete_local ⟨3, [4, 9], []⟩ =
      (Except.error (), (⟨3, [4, 9], []⟩ : Hazard.HState)) :=
  ⟨(try_delete_drains_iff_counter_zero ⟨0, [4, 9], []⟩).1 rfl,
   (try_delete_drains_iff_counter_zero ⟨3, [4, 9], []⟩).2.1 (by decide)⟩

/-- C9: Receiver teardown walks forward from the head cursor freeing every
node strictly before the final one (the node with no successor); at that
final node the swap from null link to the closed tag succeeds, and the
final node itself is never freed by the drop routine — it stays allocated
with the tag in its link. -/
theorem receiver_teardown_walk (T : Type) (c : Spsc.Chan T) (w : Spsc.Wf c) :
    ∃ n : Spsc.Node T, c.heap.getLast? = some (c.back, n) ∧
      Spsc.receiverDrop c = some ⟨[(c.back, { val := n.val, next := 1 })],
        c.back, c.back, c.alloc, c.freed ++ (c.heap.map Prod.fst).dropLast⟩ ∧
      c.back ∉ (c.heap.map Prod.fst).dropLast := by
  obtain ⟨n, h1, h2⟩ := Spsc.receiverDrop_ok c w
  exact ⟨n, h1, h2, Spsc.back_not_in_dropLast c w⟩

/-- Witness for C9 on the fresh channel: the sole node gets the tag written
into its link and is not freed. -/
theorem receiver_teardown_walk_witness :
    Spsc.receiverDrop (Spsc.channel Nat) =
      some (⟨[(2, ⟨none, 1⟩)], 2, 2, 4, []⟩ : Spsc.Chan Nat) := by
  obtain ⟨n, h1, h2, h3⟩ :=
    receiver_teardown_walk Nat (Spsc.channel Nat) (Spsc.Wf_channel Nat)
  have hn : ({ val := none, next := 0 } : Spsc.Node Nat) = n := by
    simpa [Spsc.channel] using h1
  rw [← hn] at h2
  simpa [Spsc.channel] using h2

namespace Spsc

/-- Along a linked chain whose last link is the terminator `t` (null for a
live channel, the closed tag after Sender teardown), every link is either
that terminator or the address of another chain node. -/
theorem chain_link_values (t : Nat) :
    ∀ L : List (Nat × Node T),
      List.Chain' (fun p q => p.2.next = q.1) L →
      (∀ p ∈ L.getLast?, p.2.next = t) →
      ∀ p ∈ L, p.2.next = t ∨ p.2.next ∈ L.map Prod.fst := by
  intro L
  induction L with
  | nil =>
      intro _ _ p hp
      cases hp
  | cons x L ih =>
      intro hchain hlast p hp
      rcases List.mem_cons.mp hp with rfl | hp'
      · rcases L with _ | ⟨y, L'⟩
        · exact Or.inl (hlast p (by simp))
        · right
          rw [(List.chain'_cons.mp hchain).1]
          simp
      · rcases L with _ | ⟨y, L'⟩
        · cases hp'
        · have := ih hchain.tail
            (fun q hq => hlast q (by simpa only [List.getLast?_cons_cons] using hq))
            p hp'
          rcases this with h | h
          · exact Or.inl h
          · exact Or.inr (List.mem_cons_of_mem _ h)

/-- The front cursor of a well-formed channel is an even live address. -/
theorem Wf_front_mem (c : Chan T) (w : Wf c) :
    c.front % 2 = 0 ∧ c.front ∈ c.heap.map Prod.fst := by
  obtain ⟨L, bk, fr, al, fd⟩ := c
  obtain ⟨hne, hfront, _, _, _, _, _, heven, _, _, _, _⟩ := w
  rcases L with _ | ⟨⟨qa, qn⟩, rest⟩
  · exact absurd rfl hne
  have hqa : qa = fr := by simpa using hfront
  subst hqa
  exact ⟨heven (qa, qn) (List.mem_cons_self _ _), by simp⟩

/-- The back cursor of a well-formed channel is an even live address. -/
theorem Wf_back_mem (c : Chan T) (w : Wf c) :
    c.back % 2 = 0 ∧ c.back ∈ c.heap.map Prod.fst := by
  obtain ⟨L, bk, fr, al, fd⟩ := c
  obtain ⟨hne, _, hback, _, _, _, _, heven, _, _, _, _⟩ := w
  rcases List.eq_nil_or_concat L with rfl | ⟨d, p, rfl⟩
  · exact absurd rfl hne
  obtain ⟨pa, pn⟩ := p
  simp only [List.concat_eq_append] at *
  have hpa : pa = bk := by
    rw [List.getLast?_concat] at hback
    simpa using hback
  subst hpa
  exact ⟨heven (pa, pn) (by simp), by simp⟩

end Spsc


namespace Spsc

/-- Well-formedness of a channel whose Sender has been dropped while the
Receiver is still connected: the heap is still the chain from the front
cursor onward, but the last link now holds the closed tag `1` written by
`Sender::drop`; the Sender's back cursor no longer exists, so no condition
is imposed on the `back` field. -/
structure WfS (c : Chan T) : Prop where
  hne : c.heap ≠ []
  hfront : c.heap.head?.map Prod.fst = some c.front
  hlink : List.Chain' (fun p q => p.2.next = q.1) c.heap
  hlastS : ∀ p ∈ c.heap.getLast?, p.2.next = 1
  hvals : ∀ p ∈ c.heap, p.1 ≠ c.front → (p.2.val).isSome = true
  hsorted : (c.heap.map Prod.fst).Pairwise (· < ·)
  heven : ∀ p ∈ c.heap, p.1 % 2 = 0
  hpos : ∀ p ∈ c.heap, 2 ≤ p.1
  hbound : ∀ p ∈ c.heap, p.1 < c.alloc
  halloc : c.alloc % 2 = 0
  hapos : 2 ≤ c.alloc

/-- Well-formedness of a channel whose Receiver has been dropped while the
Sender is still connected: exactly one node remains — the Sender's back
node, carrying the closed tag written by `Receiver::drop` — and the
Receiver's front cursor no longer exists. -/
structure WfR (c : Chan T) : Prop where
  hshape : ∃ n : Node T, c.heap = [(c.back, n)] ∧ n.next = 1
  heven : c.back % 2 = 0
  hpos : 2 ≤ c.back
  hbound : c.back < c.alloc
  halloc : c.alloc % 2 = 0
  hapos : 2 ≤ c.alloc

/-- Advancing past the front node of a sender-dropped channel preserves its
well-formedness. -/
theorem WfS_tail {qa ba : Nat} {qn bn : Node T} {rest' : List (Nat × Node T)}
    {bk al : Nat} {fd fd' : List Nat}
    (w : WfS ⟨(qa, qn) :: (ba, bn) :: rest', bk, qa, al, fd⟩) :
    WfS ⟨(ba, bn) :: rest', bk, ba, al, fd'⟩ := by
  obtain ⟨hne, hfront, hlink, hlastS, hvals, hsorted, heven, hpos, hbound,
    halloc, hapos⟩ := w
  refine ⟨?_, ?_, ?_, ?_, ?_, ?_, ?_, ?_, ?_, ?_, ?_⟩
  · simp
  · simp
  · exact hlink.tail
  · intro p hp
    exact hlastS p (by simpa only [List.getLast?_cons_cons] using hp)
  · intro p hp _
    have hqa : qa < p.1 := by
      have := (List.pairwise_cons.mp hsorted).1 p.1
        (List.mem_map_of_mem Prod.fst hp)
      exact this
    exact hvals p (List.mem_cons_of_mem _ hp) (Nat.ne_of_gt hqa)
  · exact hsorted.of_cons
  · intro p hp
    exact heven p (List.mem_cons_of_mem _ hp)
  · intro p hp
    exact hpos p (List.mem_cons_of_mem _ hp)
  · intro p hp
    exact hbound p (List.mem_cons_of_mem _ hp)
  · exact halloc
  · exact hapos

/-- The front cursor of a sender-dropped channel is an even live address. -/
theorem WfS_front_mem (c : Chan T) (w : WfS c) :
    c.front % 2 = 0 ∧ c.front ∈ c.heap.map Prod.fst := by
  obtain ⟨L, bk, fr, al, fd⟩ := c
  obtain ⟨hne, hfront, _, _, _, _, heven, _, _, _, _⟩ := w
  rcases L with _ | ⟨⟨qa, qn⟩, rest⟩
  · exact absurd rfl hne
  have hqa : qa = fr := by simpa using hfront
  subst hqa
  exact ⟨heven (qa, qn) (List.mem_cons_self _ _), by simp⟩

/-- `Sender::drop` on a live well-formed channel: the tag swap on the back
node's link succeeds (the link was null), the chain is unchanged apart from
that link now holding the tag, and nothing is freed. -/
theorem senderDrop_wf (c : Chan T) (w : Wf c) :
    ∃ c', senderDrop c = some c' ∧ WfS c' ∧ c'.front = c.front ∧
      c'.freed = c.freed ∧ c'.alloc = c.alloc := by
  obtain ⟨L, bk, fr, al, fd⟩ := c
  obtain ⟨hne, hfront, hback, hlink, hlast, hvals, hsorted, heven, hpos, hbound,
    halloc, hapos⟩ := w
  rcases List.eq_nil_or_concat L with rfl | ⟨d, p, rfl⟩
  · exact absurd rfl hne
  obtain ⟨pa, pn⟩ := p
  simp only [List.concat_eq_append] at *
  have hpa : pa = bk := by
    rw [List.getLast?_concat] at hback
    simpa using hback
  subst hpa
  have hnext : pn.next = 0 := hlast (pa, pn) (by simp [List.getLast?_concat])
  have hsorted' : (d.map Prod.fst ++ [pa]).Pairwise (· < ·) := by
    simpa using hsorted
  have hnotmem : pa ∉ d.map Prod.fst := fun hm =>
    lt_irrefl pa ((List.pairwise_append.mp hsorted').2.2 pa hm pa
      (List.mem_singleton_self pa))
  have hfind_back : hfind (d ++ [(pa, pn)]) pa = some pn := by
    rw [hfind_append_right _ _ _ hnotmem, hfind_cons_self]
  have hupd : hupdate (d ++ [(pa, pn)]) pa { val := pn.val, next := 1 } =
      d ++ [(pa, { val := pn.val, next := 1 })] := by
    rw [hupdate_append_right _ _ _ _ hnotmem, hupdate_cons_self]
  refine ⟨⟨d ++ [(pa, { val := pn.val, next := 1 })], pa, fr, al, fd⟩,
    ?_, ?_, rfl, rfl, rfl⟩
  · simp only [senderDrop, hfind_back]
    rw [if_pos hnext, hupd]
  · refine ⟨?_, ?_, ?_, ?_, ?_, ?_, ?_, ?_, ?_, halloc, hapos⟩
    · simp
    · rcases d with _ | ⟨q, d'⟩ <;> simpa using hfront
    · have hsplit := List.chain'_append.mp hlink
      refine List.chain'_append.mpr ⟨hsplit.1, List.chain'_singleton _, ?_⟩
      intro a ha b hb
      simp only [List.head?_cons, Option.mem_def, Option.some.injEq] at hb
      subst hb
      exact hsplit.2.2 a ha (pa, pn) (by simp)
    · intro q hq
      rw [List.getLast?_concat] at hq
      simp only [Option.mem_def, Option.some.injEq] at hq
      subst hq
      rfl
    · intro q hq hqf
      rcases List.mem_append.mp hq with hq | hq
      · exact hvals q (List.mem_append_left _ hq) hqf
      · simp only [List.mem_singleton] at hq
        subst hq
        simpa using hvals (pa, pn)
          (List.mem_append_right _ (List.mem_singleton_self _)) hqf
    · have hkeys : ((d ++ [(pa, ({ val := pn.val, next := 1 } : Node T))]).map
          Prod.fst) = d.map Prod.fst ++ [pa] := by simp
      rw [hkeys]
      exact hsorted'
    · intro q hq
      rcases List.mem_append.mp hq with hq | hq
      · exact heven q (List.mem_append_left _ hq)
      · simp only [List.mem_singleton] at hq
        subst hq
        exact heven (pa, pn) (List.mem_append_right _ (List.mem_singleton_self _))
    · intro q hq
      rcases List.mem_append.mp hq with hq | hq
      · exact hpos q (List.mem_append_left _ hq)
      · simp only [List.mem_singleton] at hq
        subst hq
        exact hpos (pa, pn) (List.mem_append_right _ (List.mem_singleton_self _))
    · intro q hq
      rcases List.mem_append.mp hq with hq | hq
      · exact hbound q (List.mem_append_left _ hq)
      · simp only [List.mem_singleton] at hq
        subst hq
        exact hbound (pa, pn) (List.mem_append_right _ (List.mem_singleton_self _))

end Spsc

namespace Spsc

/-- The `recv` loop on a sender-dropped channel always returns and keeps
the channel well-formed: buffered payloads are still taken one at a time,
the masked tagged link at the last node is never followed, and once the
chain is drained the odd-link test yields `NoSender`. -/
theorem recvAux_wfs (fuel : Nat) :
    ∀ c : Chan T, WfS c → c.heap.length < fuel →
      ∃ r c', recvAux fuel c = some (r, c') ∧ WfS c' := by
  induction fuel with
  | zero =>
      intro c _ hf
      exact absurd hf (Nat.not_lt_zero _)
  | succ fuel ih =>
      intro c w hf
      obtain ⟨L, bk, fr, al, fd⟩ := c
      have w' := w
      obtain ⟨hne, hfront, hlink, hlastS, hvals, hsorted, heven, hpos, hbound,
        halloc, hapos⟩ := w
      rcases L with _ | ⟨⟨qa, qn⟩, rest⟩
      · exact absurd rfl hne
      have hqa : qa = fr := by simpa using hfront
      subst hqa
      simp only [List.length_cons, Nat.succ_lt_succ_iff] at hf
      rcases hv : qn.val with _ | v
      · rcases rest with _ | ⟨⟨ba, bn⟩, rest'⟩
        · -- drained chain, tagged link: NoSender, channel untouched
          have hnext : qn.next = 1 := hlastS (qa, qn) (by simp)
          refine ⟨Except.error RecvErr.NoSender, _, ?_, w'⟩
          simp only [recvAux, hfind_cons_self, hv]
          rw [if_neg (by simp [hnext])]
        · -- consumed front with successor: advance and repeat
          have hba : qn.next = ba := (List.chain'_cons.mp hlink).1
          have hbaeven : ba % 2 = 0 :=
            heven (ba, bn) (List.mem_cons_of_mem _ (List.mem_cons_self _ _))
          have hbapos : 2 ≤ ba :=
            hpos (ba, bn) (List.mem_cons_of_mem _ (List.mem_cons_self _ _))
          have w2 : WfS (⟨(ba, bn) :: rest', bk, ba, al, fd ++ [qa]⟩ : Chan T) :=
            WfS_tail w'
          obtain ⟨r, c', hr, wc'⟩ := ih _ w2 (by simpa using hf)
          refine ⟨r, c', ?_, wc'⟩
          have hstep : recvAux (fuel + 1)
                (⟨(qa, qn) :: (ba, bn) :: rest', bk, qa, al, fd⟩ : Chan T) =
              recvAux fuel ⟨(ba, bn) :: rest', bk, ba, al, fd ++ [qa]⟩ := by
            simp only [recvAux, hfind_cons_self, hv, hba, hbaeven,
              hremove_cons_self]
            rw [if_pos trivial, if_neg (by omega : ¬ ba = 0)]
          rw [hstep, hr]
      · rcases rest with _ | ⟨⟨ba, bn⟩, rest'⟩
        · -- payload at the tagged last node: the masked link is null, the
          -- payload is taken, the cursor stays
          have hnext : qn.next = 1 := hlastS (qa, qn) (by simp)
          have hm : qn.next - qn.next % 2 = 0 := by
            rw [hnext]
          refine ⟨Except.ok v, ⟨[(qa, ⟨none, qn.next⟩)], bk, qa, al, fd⟩, ?_, ?_⟩
          · simp only [recvAux, hfind_cons_self, hv, hupdate_cons_self]
            rw [if_pos hm]
          · refine ⟨by simp, by simp, List.chain'_singleton _, ?_, ?_, by simp,
              ?_, ?_, ?_, halloc, hapos⟩
            · intro p hp
              simp only [Option.mem_def, List.getLast?_singleton,
                Option.some.injEq] at hp
              subst hp
              simpa using hnext
            · intro p hp hpf
              simp only [List.mem_singleton] at hp
              subst hp
              exact absurd rfl hpf
            · intro p hp
              simp only [List.mem_singleton] at hp
              subst hp
              exact heven (qa, qn) (List.mem_cons_self _ _)
            · intro p hp
              simp only [List.mem_singleton] at hp
              subst hp
              exact hpos (qa, qn) (List.mem_cons_self _ _)
            · intro p hp
              simp only [List.mem_singleton] at hp
              subst hp
              exact hbound (qa, qn) (List.mem_cons_self _ _)
        · -- payload with a real successor: take it and advance
          have hba : qn.next = ba := (List.chain'_cons.mp hlink).1
          have hbaeven : ba % 2 = 0 :=
            heven (ba, bn) (List.mem_cons_of_mem _ (List.mem_cons_self _ _))
          have hbapos : 2 ≤ ba :=
            hpos (ba, bn) (List.mem_cons_of_mem _ (List.mem_cons_self _ _))
          have hmasked : qn.next - qn.next % 2 = ba := by
            rw [hba]
            omega
          refine ⟨Except.ok v, ⟨(ba, bn) :: rest', bk, ba, al, fd ++ [qa]⟩, ?_,
            WfS_tail w'⟩
          simp only [recvAux, hfind_cons_self, hv, hmasked, hupdate_cons_self,
            hremove_cons_self]
          rw [if_neg (by omega : ¬ ba = 0)]

/-- `recv` on a sender-dropped channel. -/
theorem recv_wfs (c : Chan T) (w : WfS c) :
    ∃ r c', recv c = some (r, c') ∧ WfS c' :=
  recvAux_wfs (c.heap.length + 1) c w (Nat.lt_succ_self _)

/-- `Receiver::drop` on a sender-dropped channel frees every remaining
node: the walk frees each node, reaches the tagged link and stops with an
empty heap. -/
theorem receiverDropAux_wfs (fuel : Nat) :
    ∀ c : Chan T, WfS c → c.heap.length < fuel →
      ∃ c', receiverDropAux fuel c = some c' ∧ c'.heap = [] := by
  induction fuel with
  | zero =>
      intro c _ hf
      exact absurd hf (Nat.not_lt_zero _)
  | succ fuel ih =>
      intro c w hf
      obtain ⟨L, bk, fr, al, fd⟩ := c
      have w' := w
      obtain ⟨hne, hfront, hlink, hlastS, hvals, hsorted, heven, hpos, hbound,
        halloc, hapos⟩ := w
      rcases L with _ | ⟨⟨qa, qn⟩, rest⟩
      · exact absurd rfl hne
      have hqa : qa = fr := by simpa using hfront
      subst hqa
      simp only [List.length_cons, Nat.succ_lt_succ_iff] at hf
      rcases rest with _ | ⟨⟨ba, bn⟩, rest'⟩
      · -- the sole node carries the tag: it is freed and the walk stops
        have hnext : qn.next = 1 := hlastS (qa, qn) (by simp)
        refine ⟨⟨[], bk, qa, al, fd ++ [qa]⟩, ?_, rfl⟩
        simp only [receiverDropAux, hfind_cons_self, hremove_cons_self]
        rw [if_neg (by simp [hnext]), if_pos (by simp [hnext])]
      · -- interior node: free it and continue at the successor
        have hba : qn.next = ba := (List.chain'_cons.mp hlink).1
        have hbaeven : ba % 2 = 0 :=
          heven (ba, bn) (List.mem_cons_of_mem _ (List.mem_cons_self _ _))
        have hbapos : 2 ≤ ba :=
          hpos (ba, bn) (List.mem_cons_of_mem _ (List.mem_cons_self _ _))
        have w2 : WfS (⟨(ba, bn) :: rest', bk, ba, al, fd ++ [qa]⟩ : Chan T) :=
          WfS_tail w'
        obtain ⟨c', hr, hnl⟩ := ih _ w2 (by simpa using hf)
        refine ⟨c', ?_, hnl⟩
        have hstep : receiverDropAux (fuel + 1)
              (⟨(qa, qn) :: (ba, bn) :: rest', bk, qa, al, fd⟩ : Chan T) =
            receiverDropAux fuel ⟨(ba, bn) :: rest', bk, ba, al, fd ++ [qa]⟩ := by
          simp only [receiverDropAux, hfind_cons_self, hba, hremove_cons_self]
          rw [if_neg (by omega : ¬ ba = 0), if_neg (by omega : ¬ ba % 2 = 1)]
        rw [hstep, hr]

/-- `Receiver::drop` on a sender-dropped channel. -/
theorem receiverDrop_wfs (c : Chan T) (w : WfS c) :
    ∃ c', receiverDrop c = some c' ∧ c'.heap = [] :=
  receiverDropAux_wfs (c.heap.length + 1) c w (Nat.lt_succ_self _)

/-- `Receiver::drop` on a live well-formed channel leaves exactly the
Sender's back node, tagged — the receiver-dropped well-formed shape. -/
theorem receiverDrop_wfr (c : Chan T) (w : Wf c) :
    ∃ c', receiverDrop c = some c' ∧ WfR c' := by
  obtain ⟨n, h1, h2⟩ := receiverDrop_ok c w
  have hmem : (c.back, n) ∈ c.heap := by
    rw [← List.dropLast_append_getLast? (c.back, n) (Option.mem_def.mpr h1)]
    exact List.mem_append_right _ (List.mem_singleton_self _)
  refine ⟨_, h2, ⟨⟨⟨n.val, 1⟩, rfl, rfl⟩, (Wf_back_mem c w).1, ?_, ?_,
    w.halloc, w.hapos⟩⟩
  · exact w.hpos (c.back, n) hmem
  · exact w.hbound (c.back, n) hmem

/-- `send` on a receiver-dropped channel: the swap finds the tag, the call
fails handing the value back, the node shape is untouched (only the
allocator mark and the freed log advance for the discarded node). -/
theorem send_wfr (c : Chan T) (v : T) (w : WfR c) :
    ∃ c', send c v = some (Except.error { message := v }, c') ∧ WfR c' := by
  obtain ⟨n, hsh, hn1⟩ := w.hshape
  have hfind_back : hfind c.heap c.back = some n := by
    rw [hsh, hfind_cons_self]
  refine ⟨⟨c.heap, c.back, c.front, c.alloc + 2, c.freed ++ [c.alloc]⟩, ?_, ?_⟩
  · simp only [send, hfind_back]
    rw [if_neg (by simp [hn1])]
  · refine ⟨⟨n, hsh, hn1⟩, w.heven, w.hpos, ?_, ?_, ?_⟩
    · show c.back < c.alloc + 2
      have := w.hbound
      omega
    · show (c.alloc + 2) % 2 = 0
      have := w.halloc
      omega
    · show 2 ≤ c.alloc + 2
      omega

/-- `Sender::drop` on a receiver-dropped channel: the swap fails on the tag
and the teardown frees the last remaining node, emptying the heap. -/
theorem senderDrop_wfr (c : Chan T) (w : WfR c) :
    ∃ c', senderDrop c = some c' ∧ c'.heap = [] := by
  obtain ⟨n, hsh, hn1⟩ := w.hshape
  have hfind_back : hfind c.heap c.back = some n := by
    rw [hsh, hfind_cons_self]
  refine ⟨⟨hremove c.heap c.back, c.back, c.front, c.alloc,
    c.freed ++ [c.back]⟩, ?_, ?_⟩
  · simp only [senderDrop, hfind_back]
    rw [if_neg (by simp [hn1])]
  · show hremove c.heap c.back = []
    rw [hsh, hremove_cons_self]

end Spsc

namespace Spsc

/-- The full set of operations over a channel's lifetime: sends, receives,
and the teardown of either endpoint. -/
inductive FOp (T : Type) where
  | send (v : T)
  | recv
  | dropSender
  | dropReceiver

/-- A channel state together with which endpoints still exist. -/
inductive LState (T : Type) where
  | live (c : Chan T)
  | senderGone (c : Chan T)
  | recvGone (c : Chan T)
  | closed (c : Chan T)

/-- The underlying channel memory of a lifecycle state. -/
def LState.chan : LState T → Chan T
  | .live c => c
  | .senderGone c => c
  | .recvGone c => c
  | .closed c => c

/-- Whether the Receiver (and hence its head cursor) still exists. -/
def receiverAlive : LState T → Prop
  | .live _ => True
  | .senderGone _ => True
  | _ => False

/-- Whether the Sender (and hence its tail cursor) still exists. -/
def senderAlive : LState T → Prop
  | .live _ => True
  | .recvGone _ => True
  | _ => False

/-- Perform one lifecycle operation.  Operations of an endpoint that no
longer exists cannot be called (Rust ownership) and leave the state
unchanged; an operation whose embedding returns `none` (dangling cursor,
unreachable from well-formed states) also leaves the channel unchanged. -/
def runFOp : LState T → FOp T → LState T
  | .live c, .send v =>
      match send c v with
      | some (_, c') => .live c'
      | none => .live c
  | .live c, .recv =>
      match recv c with
      | some (_, c') => .live c'
      | none => .live c
  | .live c, .dropSender =>
      match senderDrop c with
      | some c' => .senderGone c'
      | none => .senderGone c
  | .live c, .dropReceiver =>
      match receiverDrop c with
      | some c' => .recvGone c'
      | none => .recvGone c
  | .senderGone c, .recv =>
      match recv c with
      | some (_, c') => .senderGone c'
      | none => .senderGone c
  | .senderGone c, .dropReceiver =>
      match receiverDrop c with
      | some c' => .closed c'
      | none => .closed c
  | .senderGone c, _ => .senderGone c
  | .recvGone c, .send v =>
      match send c v with
      | some (_, c') => .recvGone c'
      | none => .recvGone c
  | .recvGone c, .dropSender =>
      match senderDrop c with
      | some c' => .closed c'
      | none => .closed c
  | .recvGone c, _ => .recvGone c
  | .closed c, _ => .closed c

/-- Run a sequence of lifecycle operations. -/
def runFOps (s : LState T) (ops : List (FOp T)) : LState T :=
  ops.foldl runFOp s

/-- The lifecycle starting state: a fresh channel with both endpoints. -/
def initL (T : Type) : LState T :=
  LState.live (channel T)

/-- The channel invariant appropriate to each lifecycle phase: live
channels are `Wf`, sender-dropped ones `WfS` (tagged last link),
receiver-dropped ones `WfR` (single tagged node), and once both endpoints
are gone the heap is empty. -/
def LInv : LState T → Prop
  | .live c => Wf c
  | .senderGone c => WfS c
  | .recvGone c => WfR c
  | .closed c => c.heap = []

/-- Every lifecycle operation preserves the phase invariant. -/
theorem LInv_runFOp (s : LState T) (op : FOp T) (h : LInv s) :
    LInv (runFOp s op) := by
  cases s with
  | live c =>
      cases op with
      | send v =>
          obtain ⟨c', hs, wc', _⟩ := send_ok c v h
          simp only [runFOp, hs]
          exact wc'
      | recv =>
          rcases hp : pending c with _ | ⟨v, vs⟩
          · have hr := (recv_ok c h).1 hp
            simp only [runFOp, hr]
            exact h
          · obtain ⟨c', hr, wc', _⟩ := (recv_ok c h).2 v vs hp
            simp only [runFOp, hr]
            exact wc'
      | dropSender =>
          obtain ⟨c', hs, wc', _⟩ := senderDrop_wf c h
          simp only [runFOp, hs]
          exact wc'
      | dropReceiver =>
          obtain ⟨c', hs, wc'⟩ := receiverDrop_wfr c h
          simp only [runFOp, hs]
          exact wc'
  | senderGone c =>
      cases op with
      | send v => exact h
      | recv =>
          obtain ⟨r, c', hr, wc'⟩ := recv_wfs c h
          simp only [runFOp, hr]
          exact wc'
      | dropSender => exact h
      | dropReceiver =>
          obtain ⟨c', hs, hnl⟩ := receiverDrop_wfs c h
          simp only [runFOp, hs]
          exact hnl
  | recvGone c =>
      cases op with
      | send v =>
          obtain ⟨c', hs, wc'⟩ := send_wfr c v h
          simp only [runFOp, hs]
          exact wc'
      | recv => exact h
      | dropSender =>
          obtain ⟨c', hs, hnl⟩ := senderDrop_wfr c h
          simp only [runFOp, hs]
          exact hnl
      | dropReceiver => exact h
  | closed c =>
      cases op <;> exact h

/-- The phase invariant holds in every reachable lifecycle state. -/
theorem LInv_runFOps (ops : List (FOp T)) :
    ∀ s : LState T, LInv s → LInv (runFOps s ops) := by
  induction ops with
  | nil =>
      intro s h
      exact h
  | cons op ops ih =>
      intro s h
      exact ih (runFOp s op) (LInv_runFOp s op h)

end Spsc

namespace Spsc

/-- In any lifecycle phase satisfying its invariant, every link is null,
the tag, or an even live address, and each still-existing cursor is an even
live address. -/
theorem LInv_links (s : LState T) (hI : LInv s) :
    (∀ p ∈ s.chan.heap, p.2.next = 0 ∨ p.2.next = 1 ∨
        (p.2.next % 2 = 0 ∧ p.2.next ∈ s.chan.heap.map Prod.fst)) ∧
    (receiverAlive s →
      s.chan.front % 2 = 0 ∧ s.chan.front ∈ s.chan.heap.map Prod.fst) ∧
    (senderAlive s →
      s.chan.back % 2 = 0 ∧ s.chan.back ∈ s.chan.heap.map Prod.fst) := by
  cases s with
  | live c =>
      have hw : Wf c := hI
      refine ⟨?_, fun _ => Wf_front_mem c hw, fun _ => Wf_back_mem c hw⟩
      intro p hp
      rcases chain_link_values 0 c.heap hw.hlink hw.hlast p hp with h | h
      · exact Or.inl h
      · refine Or.inr (Or.inr ⟨?_, h⟩)
        obtain ⟨q, hq, hq2⟩ := List.mem_map.mp h
        rw [← hq2]
        exact hw.heven q hq
  | senderGone c =>
      have hw : WfS c := hI
      refine ⟨?_, fun _ => WfS_front_mem c hw, fun hfalse => False.elim hfalse⟩
      intro p hp
      rcases chain_link_values 1 c.heap hw.hlink hw.hlastS p hp with h | h
      · exact Or.inr (Or.inl h)
      · refine Or.inr (Or.inr ⟨?_, h⟩)
        obtain ⟨q, hq, hq2⟩ := List.mem_map.mp h
        rw [← hq2]
        exact hw.heven q hq
  | recvGone c =>
      have hw : WfR c := hI
      obtain ⟨n, hsh, hn1⟩ := hw.hshape
      refine ⟨?_, fun hfalse => False.elim hfalse, fun _ => ⟨hw.heven, ?_⟩⟩
      · intro p hp
        have hp' : p ∈ [(c.back, n)] := by
          rw [← hsh]
          exact hp
        simp only [List.mem_singleton] at hp'
        subst hp'
        exact Or.inr (Or.inl hn1)
      · show c.back ∈ c.heap.map Prod.fst
        rw [hsh]
        simp
  | closed c =>
      have hh : c.heap = [] := hI
      refine ⟨?_, fun hfalse => False.elim hfalse, fun hfalse => False.elim hfalse⟩
      intro p hp
      have hp' : p ∈ ([] : List (Nat × Node T)) := by
        rw [← hh]
        exact hp
      cases hp'

end Spsc

/-- C10: in every channel state reachable over the whole channel lifetime —
sends and receives while both endpoints exist, and the teardown of either
endpoint, in any order — each link field holds only null (0), the pure
closed tag (1), or the even address of a live node, and as long as the
corresponding endpoint exists, the Sender's tail cursor and the Receiver's
head cursor hold even live node addresses (low bit zero), never the tag: in
particular after one endpoint disconnects and the tag is really present in
a link, `recv`'s masking and low-bit test keep the cursors on real nodes,
so the closed tag is never followed or dereferenced as a node. -/
theorem links_null_live_or_tag (T : Type) (ops : List (Spsc.FOp T)) :
    (∀ p ∈ (Spsc.runFOps (Spsc.initL T) ops).chan.heap,
        p.2.next = 0 ∨ p.2.next = 1 ∨
          (p.2.next % 2 = 0 ∧ p.2.next ∈
            (Spsc.runFOps (Spsc.initL T) ops).chan.heap.map Prod.fst)) ∧
    (Spsc.receiverAlive (Spsc.runFOps (Spsc.initL T) ops) →
      (Spsc.runFOps (Spsc.initL T) ops).chan.front % 2 = 0 ∧
      (Spsc.runFOps (Spsc.initL T) ops).chan.front ∈
        (Spsc.runFOps (Spsc.initL T) ops).chan.heap.map Prod.fst) ∧
    (Spsc.senderAlive (Spsc.runFOps (Spsc.initL T) ops) →
      (Spsc.runFOps (Spsc.initL T) ops).chan.back % 2 = 0 ∧
      (Spsc.runFOps (Spsc.initL T) ops).chan.back ∈
        (Spsc.runFOps (Spsc.initL T) ops).chan.heap.map Prod.fst) :=
  Spsc.LInv_links (Spsc.runFOps (Spsc.initL T) ops)
    (Spsc.LInv_runFOps ops (Spsc.initL T) (Spsc.Wf_channel T))

/-- Witness for C10 on a run that really writes the tag: after one send and
the Sender's teardown, the last node's link holds the tag 1 (the middle
disjunct is the live one), and the Receiver's still-existing front cursor
is even. -/
theorem links_null_live_or_tag_witness :
    (((4, (⟨some 5, 1⟩ : Spsc.Node Nat)) : Nat × Spsc.Node Nat).2.next = 0 ∨
      ((4, (⟨some 5, 1⟩ : Spsc.Node Nat)) : Nat × Spsc.Node Nat).2.next = 1 ∨
      (((4, (⟨some 5, 1⟩ : Spsc.Node Nat)) : Nat × Spsc.Node Nat).2.next % 2 = 0 ∧
        ((4, (⟨some 5, 1⟩ : Spsc.Node Nat)) : Nat × Spsc.Node Nat).2.next ∈
          (Spsc.runFOps (Spsc.initL Nat)
            [Spsc.FOp.send 5, Spsc.FOp.dropSender]).chan.heap.map Prod.fst)) ∧
    (Spsc.runFOps (Spsc.initL Nat)
        [Spsc.FOp.send 5, Spsc.FOp.dropSender]).chan.front % 2 = 0 :=
  ⟨(links_null_live_or_tag Nat [Spsc.FOp.send 5, Spsc.FOp.dropSender]).1
      (4, ⟨some 5, 1⟩) (by decide),
   ((links_null_live_or_tag Nat [Spsc.FOp.send 5, Spsc.FOp.dropSender]).2.1
      (by exact trivial)).1⟩
